import Mathlib

/-!
Verification of the `nuke-node-modules` scanner and cleaner.

This development is a shallow embedding of the core of the tool:

* `src/src/scanner.rs` — `Scanner::find_node_modules_dirs`, the
  `filter_entry` predicate, `Scanner::should_exclude`, `validate_targets`;
* `src/src/cleaner.rs` — `Cleaner::delete_directories`,
  `Cleaner::delete_single_directory`, `calculate_directory_size`;
* `src/src/lib.rs` — `cleanup_node_modules`, `Config`, `CleanupStats`.

Modelling conventions:

* A filesystem path is its list of components (`List String`); all
  component names are assumed valid UTF-8 (the scanner's `filter_map`
  over `to_str` drops nothing on such trees).  `Path::to_string_lossy`
  becomes joining the components with `/`.
* The directory tree that `walkdir::WalkDir` traverses is the inductive
  `FSTree`/`FSForest`.  `WalkDir` yields the root entry first and then the
  children depth-first, does not follow symbolic links, and with
  `filter_entry` drops every entry on which the predicate is false
  together with its whole subtree (the predicate is also applied to the
  root entry).  Trees are assumed readable, so the `entry?` error path is
  not taken; the claims about the scanner's output concern successful runs.
* Compiled glob patterns (`glob::Pattern`, a vendored crate) are modelled
  extensionally as their `matches` function `String → Bool`; `Scanner::new`
  only keeps patterns that compiled, so the scanner's `exclude_patterns`
  field already holds compiled patterns.
* `Vec::sort` on `Vec<PathBuf>` sorts by `Ord` on paths, which compares the
  component sequences lexicographically with components compared as byte
  strings; this is `List.Lex (· < ·)` on `List String` (UTF-8 byte order
  and Unicode code-point order agree).  We model the sort by
  `List.insertionSort` with that order: both produce a sorted permutation,
  and under a total antisymmetric order on the stored values the two agree.
* The deletion stage runs its tasks on a rayon pool; each task updates the
  atomic counters exactly once and the pool join happens before the final
  snapshot, so the resulting statistics equal those of a sequential fold
  over the target list, which is how `delete_directories` is embedded.
  Real filesystem effects are abstracted into an `FsOps` record over an
  abstract state `σ`: `calcSize` is the read-only size probe and
  `removeDirAll` is `fs::remove_dir_all`, returning the new state and a
  result.  `u64`/`usize` counters are modelled as `Nat` (the counts are
  bounded by the list length and byte totals far below `2^64`, so wrapping
  is unreachable on meaningful inputs).
-/

mutual

/-- Snapshot of a filesystem node: a regular file with its byte length, a
symbolic link with the byte length of the link itself, or a directory with
its named children. -/
inductive FSTree : Type where
  | file : Nat → FSTree
  | symlink : Nat → FSTree
  | dir : FSForest → FSTree
  deriving DecidableEq

/-- Children of a directory: a list of (name, subtree) pairs, in the order
the operating system returns them (unspecified, hence arbitrary here). -/
inductive FSForest : Type where
  | nil : FSForest
  | cons : String → FSTree → FSForest → FSForest
  deriving DecidableEq

end

/-- Embedding of `entry.file_type().is_dir()`: symbolic links are not
followed, so a link to a directory is not a directory. -/
def FSTree.isDirB : FSTree → Bool
  | .dir _ => true
  | _ => false

/-- Embedding of `components.iter().position(|&c| c == "node_modules")`
(scanner.rs line 47): index of the first component equal to
`node_modules`, if any. -/
def firstNmIdx : List String → Option Nat
  | [] => none
  | c :: rest =>
      if c == "node_modules" then some 0
      else (firstNmIdx rest).map (· + 1)

/-- Embedding of the `filter_entry` closure of
`Scanner::find_node_modules_dirs` (scanner.rs lines 38–55).  `comps` is
the full component list of the entry's path; `e.file_name()` is its last
component. -/
def filterPred (comps : List String) : Bool :=
  match firstNmIdx comps with
  | some i => comps.getLastD "" != "node_modules" || comps.length == i + 1
  | none => true

mutual

/-- Depth-first traversal of `walkdir::WalkDir::new` restricted by
`filter_entry pred`: the entry at path `p` is yielded iff `pred p` holds,
and a rejected directory's subtree is skipped entirely.  Yields
(path, node) pairs, root first, children in list order. -/
def walkF (pred : List String → Bool) (p : List String) : FSTree → List (List String × FSTree)
  | .file n => if pred p then [(p, .file n)] else []
  | .symlink n => if pred p then [(p, .symlink n)] else []
  | .dir f => if pred p then (p, .dir f) :: walkForest pred p f else []

/-- Traversal of the children of a directory at path `p`. -/
def walkForest (pred : List String → Bool) (p : List String) : FSForest → List (List String × FSTree)
  | .nil => []
  | .cons name t rest => walkF pred (p ++ [name]) t ++ walkForest pred p rest

end

/-- Embedding of `Path::to_string_lossy` on a component list: components
joined with the path separator. -/
def pathStr (comps : List String) : String :=
  String.intercalate "/" comps

/-- Embedding of `struct Scanner` (scanner.rs lines 9–12): the root path as
a component list and the successfully compiled exclusion patterns, each
modelled by its `matches` function on path strings. -/
structure Scanner where
  root_path : List String
  exclude_patterns : List (String → Bool)

/-- Embedding of `Scanner::should_exclude` (scanner.rs lines 75–85): true
iff some compiled pattern matches the path's string form. -/
def Scanner.should_exclude (s : Scanner) (path : List String) : Bool :=
  s.exclude_patterns.any (fun pattern => pattern (pathStr path))

/-- Strict byte-wise comparison of two strings, as `Ord` on Rust `OsStr`
components compares them (UTF-8 byte order equals code-point order). -/
def strLt (a b : String) : Prop :=
  List.Lex (· < ·) a.data b.data

instance strLt.decRel : DecidableRel strLt := fun a b =>
  inferInstanceAs (Decidable (List.Lex (· < ·) a.data b.data))

theorem strLt_iff_lt (a b : String) : strLt a b ↔ a < b := by
  rw [String.lt_iff_toList_lt]
  exact Iff.rfl

instance strLt.trichotomousInst : IsTrichotomous String strLt := by
  constructor
  intro a b
  rcases lt_trichotomy a b with h | h | h
  · exact Or.inl ((strLt_iff_lt a b).mpr h)
  · exact Or.inr (Or.inl h)
  · exact Or.inr (Or.inr ((strLt_iff_lt b a).mpr h))

instance strLt.transInst : IsTrans String strLt := by
  constructor
  intro a b c h1 h2
  exact (strLt_iff_lt a c).mpr (lt_trans ((strLt_iff_lt a b).mp h1) ((strLt_iff_lt b c).mp h2))

instance strLt.irreflInst : IsIrrefl String strLt := by
  constructor
  intro a h
  exact lt_irrefl a ((strLt_iff_lt a a).mp h)

instance strLt.strictOrderInst : IsStrictOrder String strLt := ⟨⟩

instance strLt.stoInst : IsStrictTotalOrder String strLt := ⟨⟩

/-- Order used by `targets.sort()` on `Vec<PathBuf>`: `Ord` on paths
compares the component sequences lexicographically, components as byte
strings. -/
def pathLe (a b : List String) : Prop :=
  List.Lex strLt a b ∨ a = b

instance pathLe.decRel : DecidableRel pathLe := fun a b =>
  inferInstanceAs (Decidable (List.Lex strLt a b ∨ a = b))

instance pathLe.isTotal : IsTotal (List String) pathLe := by
  constructor
  intro a b
  rcases trichotomous (r := List.Lex strLt) a b with h | h | h
  · exact Or.inl (Or.inl h)
  · exact Or.inl (Or.inr h)
  · exact Or.inr (Or.inl h)

instance pathLe.isTrans : IsTrans (List String) pathLe := by
  constructor
  rintro a b c (hab | rfl) (hbc | rfl)
  · exact Or.inl (trans_of _ hab hbc)
  · exact Or.inl hab
  · exact Or.inl hbc
  · exact Or.inr rfl

/-- Embedding of `Scanner::find_node_modules_dirs` (scanner.rs lines
33–72) run against the tree `t` found at the scanner's root path: walk
with the pre-descent filter, keep directory entries named `node_modules`
that are not excluded, and sort. -/
def Scanner.find_node_modules_dirs (s : Scanner) (t : FSTree) : List (List String) :=
  let entries := walkF filterPred s.root_path t
  let targets := (entries.filter
    (fun e => e.2.isDirB && (e.1.getLastD "" == "node_modules") && !s.should_exclude e.1)).map Prod.fst
  List.insertionSort pathLe targets

/-- Embedding of `CleanupStats` (lib.rs lines 27–36); counts and byte
totals as `Nat` (see the header note on machine integers). -/
structure CleanupStats where
  directories_found : Nat := 0
  directories_deleted : Nat := 0
  directories_failed : Nat := 0
  bytes_freed : Nat := 0
  deriving DecidableEq

/-- Embedding of `Config` (lib.rs lines 11–22).  `exclude_patterns` lives
in the `Scanner` (already compiled), and `threads` only sizes the worker
pool, which the sequential embedding of the fold does not observe. -/
structure Config where
  dry_run : Bool
  no_confirm : Bool
  quiet : Bool

/-- Filesystem primitives the cleaner calls, over an abstract filesystem
state `σ`: `calcSize` is the read-only probe `calculate_directory_size`
as the cleaner observes it, and `removeDirAll` is `fs::remove_dir_all`,
returning the state after the call and its result. -/
structure FsOps (σ : Type) where
  calcSize : σ → List String → Except String Nat
  removeDirAll : σ → List String → σ × Except String Unit

/-- Single-quote character, used in the safety-check error message. -/
def squote : String := String.singleton (Char.ofNat 39)

/-- Error message of `validate_targets` (scanner.rs lines 105–108) for the
offending path `p`. -/
def validationMsg (p : List String) : String :=
  "Safety check failed: path " ++ squote ++ pathStr p ++ squote ++
    " does not end with " ++ squote ++ "node_modules" ++ squote

/-- Embedding of `validate_targets` (scanner.rs lines 102–112): error on
the first path in list order whose terminal component is not
`node_modules`. -/
def validate_targets : List (List String) → Except String Unit
  | [] => .ok ()
  | p :: rest =>
      if p.getLastD "" == "node_modules" then validate_targets rest
      else .error (validationMsg p)

/-- Embedding of `Cleaner::delete_single_directory` (cleaner.rs lines
137–145): probe the size (a failed probe counts as 0), then recursively
remove; a remove error is returned to the caller. -/
def Cleaner.delete_single_directory {σ : Type} (ops : FsOps σ) (st : σ)
    (path : List String) : σ × Except String Nat :=
  let size_before := match ops.calcSize st path with
    | .ok n => n
    | .error _ => 0
  match ops.removeDirAll st path with
  | (st2, .ok _) => (st2, .ok size_before)
  | (st2, .error e) => (st2, .error e)

/-- One deletion task of `Cleaner::delete_directories` (cleaner.rs lines
84–105) acting on the accumulator (state, deleted, failed, bytes): a
success bumps `deleted` and adds the probed bytes, a failure bumps
`failed`. -/
def Cleaner.deleteStep {σ : Type} (ops : FsOps σ) (acc : σ × Nat × Nat × Nat)
    (target : List String) : σ × Nat × Nat × Nat :=
  match Cleaner.delete_single_directory ops acc.1 target with
  | (st2, .ok b) => (st2, acc.2.1 + 1, acc.2.2.1, acc.2.2.2 + b)
  | (st2, .error _) => (st2, acc.2.1, acc.2.2.1 + 1, acc.2.2.2)

/-- Embedding of `Cleaner::delete_directories` (cleaner.rs lines 54–134):
validate, return default stats on an empty list, otherwise run one task
per target and snapshot the counters.  The parallel `for_each` updates the
atomic counters once per task and the pool join precedes the snapshot, so
the statistics equal those of this sequential fold. -/
def Cleaner.delete_directories {σ : Type} (ops : FsOps σ) (st : σ)
    (targets : List (List String)) : σ × Except String CleanupStats :=
  match validate_targets targets with
  | .error e => (st, .error e)
  | .ok _ =>
    if targets.isEmpty then (st, .ok {})
    else
      let r := targets.foldl (Cleaner.deleteStep ops) (st, 0, 0, 0)
      (r.1, .ok { directories_found := targets.length, directories_deleted := r.2.1,
                  directories_failed := r.2.2.1, bytes_freed := r.2.2.2 })

/-- Byte contribution of one walked entry in `calculate_directory_size`:
`entry.metadata().len()` when `entry.file_type().is_file()`, else nothing.
Symbolic links are not regular files (`walkdir` does not follow them). -/
def fileSizeOf : FSTree → Nat
  | .file n => n
  | _ => 0

/-- Embedding of `calculate_directory_size` (cleaner.rs lines 149–160) on
a readable tree: walk every entry (no filter) and sum the lengths of the
regular files. -/
def calculate_directory_size (t : FSTree) : Nat :=
  (walkF (fun _ => true) [] t).foldl (fun total e => total + fileSizeOf e.2) 0

/-- Embedding of `cleanup_node_modules` (lib.rs lines 39–86): scan, return
zeroed stats when nothing was found, return found-only stats on a dry run
or a declined confirmation, otherwise delete.  `confirmAnswer` is the
answer the shell's `cli::confirm_deletion` collaborator returns. -/
def cleanup_node_modules {σ : Type} (s : Scanner) (t : FSTree) (config : Config)
    (ops : FsOps σ) (st : σ) (confirmAnswer : Bool) : σ × Except String CleanupStats :=
  let targets := s.find_node_modules_dirs t
  if targets.isEmpty then (st, .ok {})
  else if config.dry_run then (st, .ok { directories_found := targets.length })
  else if !config.no_confirm && !config.quiet && !confirmAnswer then
    (st, .ok { directories_found := targets.length })
  else Cleaner.delete_directories ops st targets

mutual

/-- Modelled from the spec (§4.4), for comparison with the code: the size
of a directory where every regular file counts its byte length and every
symbolic link counts its own link size, not the target's. -/
def specSizeWithLinks : FSTree → Nat
  | .file n => n
  | .symlink n => n
  | .dir f => specSizeWithLinksForest f

/-- Sum of `specSizeWithLinks` over a forest. -/
def specSizeWithLinksForest : FSForest → Nat
  | .nil => 0
  | .cons _ t rest => specSizeWithLinks t + specSizeWithLinksForest rest

end

mutual

/-- Sum of the byte lengths of the regular files in a tree; symbolic links
contribute nothing. -/
def sumRegularFiles : FSTree → Nat
  | .file n => n
  | .symlink _ => 0
  | .dir f => sumRegularFilesForest f

/-- Sum of `sumRegularFiles` over a forest. -/
def sumRegularFilesForest : FSForest → Nat
  | .nil => 0
  | .cons _ t rest => sumRegularFiles t + sumRegularFilesForest rest

end
mutual

theorem walkF_mem_pred (pred : List String → Bool) (p : List String) :
    ∀ (t : FSTree) (e : List String × FSTree), e ∈ walkF pred p t → pred e.1 = true
  | .file n, e, h => by
      simp only [walkF] at h
      split at h
      · next hp =>
          rcases List.mem_singleton.mp h with rfl
          exact hp
      · exact absurd h (List.not_mem_nil e)
  | .symlink n, e, h => by
      simp only [walkF] at h
      split at h
      · next hp =>
          rcases List.mem_singleton.mp h with rfl
          exact hp
      · exact absurd h (List.not_mem_nil e)
  | .dir f, e, h => by
      simp only [walkF] at h
      split at h
      · next hp =>
          rcases List.mem_cons.mp h with rfl | h2
          · exact hp
          · exact walkForest_mem_pred pred p f e h2
      · exact absurd h (List.not_mem_nil e)

theorem walkForest_mem_pred (pred : List String → Bool) (p : List String) :
    ∀ (f : FSForest) (e : List String × FSTree), e ∈ walkForest pred p f → pred e.1 = true
  | .nil, e, h => absurd h (List.not_mem_nil e)
  | .cons name t rest, e, h => by
      simp only [walkForest] at h
      rcases List.mem_append.mp h with h2 | h2
      · exact walkF_mem_pred pred (p ++ [name]) t e h2
      · exact walkForest_mem_pred pred p rest e h2

end
mutual

theorem walkF_mem_append (pred : List String → Bool) (p : List String) :
    ∀ (t : FSTree) (e : List String × FSTree), e ∈ walkF pred p t → ∃ q, e.1 = p ++ q
  | .file n, e, h => by
      simp only [walkF] at h
      split at h
      · rcases List.mem_singleton.mp h with rfl
        exact ⟨[], by simp⟩
      · exact absurd h (List.not_mem_nil e)
  | .symlink n, e, h => by
      simp only [walkF] at h
      split at h
      · rcases List.mem_singleton.mp h with rfl
        exact ⟨[], by simp⟩
      · exact absurd h (List.not_mem_nil e)
  | .dir f, e, h => by
      simp only [walkF] at h
      split at h
      · rcases List.mem_cons.mp h with rfl | h2
        · exact ⟨[], by simp⟩
        · exact walkForest_mem_append pred p f e h2
      · exact absurd h (List.not_mem_nil e)

theorem walkForest_mem_append (pred : List String → Bool) (p : List String) :
    ∀ (f : FSForest) (e : List String × FSTree), e ∈ walkForest pred p f → ∃ q, e.1 = p ++ q
  | .nil, e, h => absurd h (List.not_mem_nil e)
  | .cons name t rest, e, h => by
      simp only [walkForest] at h
      rcases List.mem_append.mp h with h2 | h2
      · rcases walkF_mem_append pred (p ++ [name]) t e h2 with ⟨q, hq⟩
        exact ⟨name :: q, by simp [hq]⟩
      · exact walkForest_mem_append pred p rest e h2

end

mutual

theorem walkF_take_pred (pred : List String → Bool) (p : List String) :
    ∀ (t : FSTree) (e : List String × FSTree), e ∈ walkF pred p t →
      ∀ k, p.length ≤ k → k ≤ e.1.length → pred (e.1.take k) = true
  | .file n, e, h, k, hk1, hk2 => by
      simp only [walkF] at h
      split at h
      · next hp =>
          rcases List.mem_singleton.mp h with rfl
          have hk : k = p.length := le_antisymm hk2 hk1
          subst hk
          simpa using hp
      · exact absurd h (List.not_mem_nil e)
  | .symlink n, e, h, k, hk1, hk2 => by
      simp only [walkF] at h
      split at h
      · next hp =>
          rcases List.mem_singleton.mp h with rfl
          have hk : k = p.length := le_antisymm hk2 hk1
          subst hk
          simpa using hp
      · exact absurd h (List.not_mem_nil e)
  | .dir f, e, h, k, hk1, hk2 => by
      simp only [walkF] at h
      split at h
      · next hp =>
          rcases List.mem_cons.mp h with rfl | h2
          · have hk : k = p.length := le_antisymm hk2 hk1
            subst hk
            simpa using hp
          · exact walkForest_take_pred pred p hp f e h2 k hk1 hk2
      · exact absurd h (List.not_mem_nil e)

theorem walkForest_take_pred (pred : List String → Bool) (p : List String)
    (hp : pred p = true) :
    ∀ (f : FSForest) (e : List String × FSTree), e ∈ walkForest pred p f →
      ∀ k, p.length ≤ k → k ≤ e.1.length → pred (e.1.take k) = true
  | .nil, e, h, _, _, _ => absurd h (List.not_mem_nil e)
  | .cons name t rest, e, h, k, hk1, hk2 => by
      simp only [walkForest] at h
      rcases List.mem_append.mp h with h2 | h2
      · rcases lt_or_le k (p.length + 1) with hlt | hge
        · have hk : k = p.length := le_antisymm (Nat.lt_succ_iff.mp hlt) hk1
          subst hk
          rcases walkF_mem_append pred (p ++ [name]) t e h2 with ⟨q, hq⟩
          rw [hq]
          have : (p ++ [name] ++ q).take p.length = p := by
            rw [List.append_assoc, List.take_append_of_le_length (le_refl p.length)]
            simp
          rw [this]
          exact hp
        · have : (p ++ [name]).length ≤ k := by simpa using hge
          exact walkF_take_pred pred (p ++ [name]) t e h2 k this hk2
      · exact walkForest_take_pred pred p hp rest e h2 k hk1 hk2

end
theorem firstNmIdx_lt_length : ∀ (l : List String) (i : Nat),
    firstNmIdx l = some i → i < l.length
  | [], i, h => by simp [firstNmIdx] at h
  | c :: rest, i, h => by
      simp only [firstNmIdx] at h
      split at h
      · cases h
        simp
      · rcases Option.map_eq_some'.mp h with ⟨j, hj, rfl⟩
        have := firstNmIdx_lt_length rest j hj
        simpa using Nat.succ_lt_succ this

theorem firstNmIdx_before : ∀ (l : List String) (i : Nat),
    firstNmIdx l = some i → ∀ j, j < i → l.getD j "" ≠ "node_modules"
  | [], i, h, j, hj => by simp [firstNmIdx] at h
  | c :: rest, i, h, j, hj => by
      simp only [firstNmIdx] at h
      split at h
      · cases h
        exact absurd hj (Nat.not_lt_zero j)
      · next hc =>
          rcases Option.map_eq_some'.mp h with ⟨m, hm, rfl⟩
          cases j with
          | zero =>
              simp only [List.getD_cons_zero]
              intro habs
              exact hc (by simp [habs])
          | succ j2 =>
              have := firstNmIdx_before rest m hm j2 (Nat.lt_of_succ_lt_succ hj)
              simpa using this

theorem firstNmIdx_isSome_of_mem : ∀ (l : List String),
    "node_modules" ∈ l → ∃ i, firstNmIdx l = some i
  | [], h => absurd h (List.not_mem_nil _)
  | c :: rest, h => by
      simp only [firstNmIdx]
      split
      · exact ⟨0, rfl⟩
      · next hc =>
          have hmem : "node_modules" ∈ rest := by
            rcases List.mem_cons.mp h with h1 | h2
            · rw [← h1] at hc
              simp at hc
            · exact h2
          rcases firstNmIdx_isSome_of_mem rest hmem with ⟨i, hi⟩
          exact ⟨i + 1, by simp [hi]⟩

theorem getLastD_mem : ∀ (l : List String) (d : String), l ≠ [] → l.getLastD d ∈ l
  | [a], d, _ => by simp [List.getLastD]
  | a :: b :: rest, d, _ => by
      have h2 := getLastD_mem (b :: rest) a (by simp)
      have h3 : (a :: b :: rest).getLastD d = (b :: rest).getLastD a := by
        simp [List.getLastD]
      rw [h3]
      exact List.mem_cons_of_mem a h2
theorem getLastD_irrel : ∀ (l : List String) (d d2 : String), l ≠ [] →
    l.getLastD d = l.getLastD d2
  | [a], d, d2, _ => rfl
  | a :: b :: rest, d, d2, _ => by
      have h3 : ∀ d3 : String, (a :: b :: rest).getLastD d3 = (b :: rest).getLastD a :=
        fun d3 => rfl
      rw [h3 d, h3 d2]

theorem firstNmIdx_last : ∀ (l : List String),
    (∀ j, j + 1 < l.length → l.getD j "" ≠ "node_modules") →
    l.getLastD "" = "node_modules" → firstNmIdx l = some (l.length - 1)
  | [], _, hlast => by simp [List.getLastD] at hlast
  | [c], _, hlast => by
      have hc : c = "node_modules" := hlast
      simp [firstNmIdx, hc]
  | c :: b :: rest, hbefore, hlast => by
      have hc : c ≠ "node_modules" := hbefore 0 (by simp)
      have hrest : firstNmIdx (b :: rest) = some ((b :: rest).length - 1) := by
        apply firstNmIdx_last (b :: rest)
        · intro j hj
          have := hbefore (j + 1) (by simpa using Nat.succ_lt_succ hj)
          simpa using this
        · have h4 : (c :: b :: rest).getLastD "" = (b :: rest).getLastD c := rfl
          rw [h4] at hlast
          rw [getLastD_irrel (b :: rest) "" c (by simp)]
          exact hlast
      simp only [firstNmIdx]
      rw [if_neg (by simpa using hc)]
      simp only [firstNmIdx] at hrest
      rw [hrest]
      simp

theorem filterPred_no_nm_before (p : List String)
    (hpred : filterPred p = true) (hlast : p.getLastD "" = "node_modules") :
    ∀ j, j + 1 < p.length → p.getD j "" ≠ "node_modules" := by
  have hne : p ≠ [] := by
    intro habs
    rw [habs] at hlast
    simp [List.getLastD] at hlast
  rcases firstNmIdx_isSome_of_mem p (hlast ▸ getLastD_mem p "" hne) with ⟨i, hi⟩
  unfold filterPred at hpred
  rw [hi] at hpred
  have hlen : p.length = i + 1 := by
    rcases Bool.or_eq_true_iff.mp hpred with h2 | h2
    · rw [bne_iff_ne] at h2
      exact absurd hlast h2
    · simpa using h2
  intro j hj
  exact firstNmIdx_before p i hi j (by omega)

theorem filterPred_eq_false_iff (p : List String) :
    filterPred p = false ↔
      (p.getLastD "" = "node_modules" ∧ ∀ i, firstNmIdx p = some i → i + 1 ≠ p.length) := by
  unfold filterPred
  cases hidx : firstNmIdx p with
  | none =>
      simp only []
      constructor
      · intro h
        simp at h
      · rintro ⟨hlast, _⟩
        have hne : p ≠ [] := by
          intro habs
          rw [habs] at hlast
          simp [List.getLastD] at hlast
        rcases firstNmIdx_isSome_of_mem p (hlast ▸ getLastD_mem p "" hne) with ⟨i, hi⟩
        rw [hidx] at hi
        cases hi
  | some i =>
      simp only []
      constructor
      · intro h
        rcases Bool.or_eq_false_iff.mp h with ⟨h1, h2⟩
        refine ⟨by simpa using h1, ?_⟩
        intro i2 hi2
        injection hi2 with hii
        subst hii
        intro habs
        rw [← habs] at h2
        simp at h2
      · rintro ⟨hlast, hall⟩
        have h1 : (p.getLastD "" != "node_modules") = false := by
          rw [hlast]
          decide
        have h2 : (p.length == i + 1) = false := by
          have := hall i rfl
          simp only [beq_eq_false_iff_ne]
          omega
        rw [h1, h2]
        rfl

theorem mem_find_iff (s : Scanner) (t : FSTree) (q : List String) :
    q ∈ s.find_node_modules_dirs t ↔
      ∃ nd, (q, nd) ∈ walkF filterPred s.root_path t ∧ nd.isDirB = true ∧
        q.getLastD "" = "node_modules" ∧ s.should_exclude q = false := by
  unfold Scanner.find_node_modules_dirs
  rw [(List.perm_insertionSort pathLe _).mem_iff]
  simp only [List.mem_map, List.mem_filter]
  constructor
  · rintro ⟨⟨q1, nd⟩, ⟨hmem, hcond⟩, rfl⟩
    simp only [Bool.and_eq_true, beq_iff_eq, Bool.not_eq_true'] at hcond
    exact ⟨nd, hmem, hcond.1.1, hcond.1.2, hcond.2⟩
  · rintro ⟨nd, h1, h2, h3, h4⟩
    refine ⟨(q, nd), ⟨h1, ?_⟩, rfl⟩
    show (nd.isDirB && (q.getLastD "" == "node_modules") && !s.should_exclude q) = true
    rw [h2, h3, h4]
    rfl
theorem getLastD_eq_getD : ∀ (q : List String) (d : String), q ≠ [] →
    q.getLastD d = q.getD (q.length - 1) d
  | [a], d, _ => rfl
  | a :: b :: rest, d, _ => by
      have h1 : (a :: b :: rest).getLastD d = (b :: rest).getLastD a := rfl
      rw [h1, getLastD_irrel (b :: rest) a d (by simp),
        getLastD_eq_getD (b :: rest) d (by simp)]
      simp

/-- C1: every path in the scanner's output has terminal component
`node_modules`, and no proper ancestor of it strictly below the scan root
has terminal component `node_modules` (nested `node_modules` directories
never appear in the output). -/
theorem C1_scanner_output_top_level (s : Scanner) (t : FSTree) (p : List String)
    (hp : p ∈ s.find_node_modules_dirs t) :
    p.getLastD "" = "node_modules" ∧
      ∀ q rest, p = q ++ rest → rest ≠ [] → s.root_path.length < q.length →
        q.getLastD "" ≠ "node_modules" := by
  rcases (mem_find_iff s t p).mp hp with ⟨nd, hw, hdir, hlast, hexcl⟩
  have hpred : filterPred p = true := walkF_mem_pred filterPred s.root_path t (p, nd) hw
  have hcore := filterPred_no_nm_before p hpred hlast
  refine ⟨hlast, ?_⟩
  rintro q rest rfl hrest hql
  have hqne : q ≠ [] := by
    intro habs
    rw [habs] at hql
    simp at hql
  have hlt : q.length - 1 + 1 < (q ++ rest).length := by
    have h0 : 0 < q.length := List.length_pos.mpr hqne
    have h1 : 0 < rest.length := List.length_pos.mpr hrest
    simp only [List.length_append]
    omega
  have := hcore (q.length - 1) hlt
  intro habs
  apply this
  rw [List.getD_append q rest "" (q.length - 1) (by
    have h0 : 0 < q.length := List.length_pos.mpr hqne
    omega)]
  rw [← getLastD_eq_getD q "" hqne]
  exact habs

theorem C1_witness :
    (["r", "node_modules"] : List String).getLastD "" = "node_modules" :=
  (C1_scanner_output_top_level ⟨["r"], []⟩
    (.dir (.cons "node_modules" (.dir .nil) .nil)) ["r", "node_modules"] (by decide)).1
/-- C4: in the tree `r/node_modules/pkg`, the entry `r/node_modules/pkg`
lies strictly below a `node_modules` ancestor and is not itself the
boundary, yet the pre-descent filter lets it through (its own name is not
`node_modules`), so the walker yields it and descends into it.  This
contradicts the claim — and the code's own comments, which say the walk
must not traverse deeper once inside a `node_modules` directory — so the
filter as written is a slip: it prunes only nested `node_modules`-named
entries, not the whole subtree. -/
theorem C4_filter_descends_below_boundary :
    (["r", "node_modules", "pkg"] : List String) ∈
      (walkF filterPred ["r"]
        (.dir (.cons "node_modules" (.dir (.cons "pkg" (.dir .nil) .nil)) .nil))).map Prod.fst ∧
    (["r", "node_modules", "pkg"] : List String).getLastD "" ≠ "node_modules" ∧
    (["r", "node_modules", "pkg"] : List String).getD 1 "" = "node_modules" := by
  decide

/-- Characterisation of the behaviour the filter actually implements: it
rejects exactly the entries whose own terminal component is
`node_modules` while the first `node_modules` component of their path is
not the terminal one (i.e. nested `node_modules` directories); and
whenever a `filter_entry` predicate rejects a path, no entry at or
strictly below that path is yielded by the walk. -/
theorem filterPred_skip_characterization :
    (∀ p : List String, filterPred p = false ↔
      (p.getLastD "" = "node_modules" ∧ ∀ i, firstNmIdx p = some i → i + 1 ≠ p.length)) ∧
    (∀ (pr : List String → Bool) (r : List String) (t : FSTree) (e : List String × FSTree),
      e ∈ walkF pr r t → ∀ k, r.length ≤ k → k ≤ e.1.length → pr (e.1.take k) = true) :=
  ⟨filterPred_eq_false_iff, fun pr r t e h k h1 h2 => walkF_take_pred pr r t e h k h1 h2⟩

/-- C5 counterexample: with candidates `r/a/b/node_modules` and
`r/a-b/node_modules` the scanner's output (sorted by path components) is
not non-decreasing in byte-wise order of the full path strings, because
the hyphen sorts before the separator. -/
theorem C5_counterexample :
    ¬ List.Pairwise (fun a b : List String => pathStr a ≤ pathStr b)
      (Scanner.find_node_modules_dirs ⟨["r"], []⟩
        (.dir (.cons "a" (.dir (.cons "b" (.dir (.cons "node_modules" (.dir .nil) .nil)) .nil))
          (.cons "a-b" (.dir (.cons "node_modules" (.dir .nil) .nil)) .nil)))) := by
  intro h
  have h2 : List.Pairwise
      (fun a b : List String => strLt (pathStr a) (pathStr b) ∨ pathStr a = pathStr b)
      (Scanner.find_node_modules_dirs ⟨["r"], []⟩
        (.dir (.cons "a" (.dir (.cons "b" (.dir (.cons "node_modules" (.dir .nil) .nil)) .nil))
          (.cons "a-b" (.dir (.cons "node_modules" (.dir .nil) .nil)) .nil)))) :=
    h.imp (fun hab => (lt_or_eq_of_le hab).imp (strLt_iff_lt _ _).mpr id)
  revert h2
  decide

/-- C5 amended: the scanner's output is non-decreasing in the path order
`Vec::sort` actually uses — lexicographic comparison of the component
sequences (with components compared byte-wise) — which can disagree with
byte-wise order of the joined path strings. -/
theorem C5_sorted_componentwise (s : Scanner) (t : FSTree) :
    List.Sorted pathLe (s.find_node_modules_dirs t) := by
  unfold Scanner.find_node_modules_dirs
  exact List.sorted_insertionSort pathLe _
/-- C6: a candidate whose path string is matched by some successfully
compiled exclusion pattern is absent from the scanner's output. -/
theorem C6_excluded_absent (s : Scanner) (t : FSTree) (p : List String)
    (h : ∃ pat ∈ s.exclude_patterns, pat (pathStr p) = true) :
    p ∉ s.find_node_modules_dirs t := by
  intro hmem
  rcases (mem_find_iff s t p).mp hmem with ⟨nd, _, _, _, hexcl⟩
  rcases h with ⟨pat, hpat, hmatch⟩
  have hexcl2 : s.should_exclude p = true :=
    List.any_eq_true.mpr ⟨pat, hpat, hmatch⟩
  rw [hexcl2] at hexcl
  cases hexcl

theorem C6_witness :
    (["r", "node_modules"] : List String) ∉
      Scanner.find_node_modules_dirs
        ⟨["r"], [fun str => str == "r/node_modules"]⟩
        (.dir (.cons "node_modules" (.dir .nil) .nil)) :=
  C6_excluded_absent _ _ _
    ⟨fun str => str == "r/node_modules", List.mem_singleton.mpr rfl, by decide⟩

/-- C10 counterexample: a root named `node_modules` is not returned when a
compiled exclusion pattern (here the exact-match glob `node_modules`)
matches it, so the claim fails as stated for scanners with exclusions. -/
theorem C10_counterexample :
    Scanner.find_node_modules_dirs
      ⟨["node_modules"], [fun str => str == "node_modules"]⟩ (.dir .nil) = [] := by
  decide

/-- C10 amended: if the scanner's root is itself a directory whose
terminal component is `node_modules`, no earlier component of the root
equals `node_modules`, and no compiled exclusion pattern matches the
root's path string, then the root itself is in the scanner's output. -/
theorem C10_root_is_candidate (s : Scanner) (f : FSForest)
    (hlast : s.root_path.getLastD "" = "node_modules")
    (hbefore : ∀ j, j + 1 < s.root_path.length → s.root_path.getD j "" ≠ "node_modules")
    (hexcl : s.should_exclude s.root_path = false) :
    s.root_path ∈ s.find_node_modules_dirs (.dir f) := by
  have hidx : firstNmIdx s.root_path = some (s.root_path.length - 1) :=
    firstNmIdx_last _ hbefore hlast
  have hne : s.root_path ≠ [] := by
    intro habs
    rw [habs] at hlast
    exact absurd hlast (by decide)
  have hpred : filterPred s.root_path = true := by
    unfold filterPred
    rw [hidx]
    have hlen : 0 < s.root_path.length := List.length_pos.mpr hne
    have hbeq : (s.root_path.length == s.root_path.length - 1 + 1) = true := by
      simp only [beq_iff_eq]
      omega
    show (s.root_path.getLastD "" != "node_modules" ||
      s.root_path.length == s.root_path.length - 1 + 1) = true
    rw [hbeq]
    simp
  apply (mem_find_iff s (.dir f) s.root_path).mpr
  refine ⟨.dir f, ?_, rfl, hlast, hexcl⟩
  simp only [walkF, hpred, if_true]
  exact List.mem_cons_self _ _

theorem C10_witness :
    (["node_modules"] : List String) ∈
      Scanner.find_node_modules_dirs ⟨["node_modules"], []⟩ (.dir .nil) :=
  C10_root_is_candidate ⟨["node_modules"], []⟩ .nil (by decide)
    (by
      intro j hj
      exfalso
      have hj2 : j + 1 < 1 := hj
      omega) rfl
theorem validate_targets_cons (q : List String) (rest : List (List String)) :
    validate_targets (q :: rest) =
      if (q.getLastD "" == "node_modules") = true then validate_targets rest
      else .error (validationMsg q) := rfl

theorem validate_targets_find : ∀ ts : List (List String),
    (∀ p, ts.find? (fun q => !(q.getLastD "" == "node_modules")) = some p →
        validate_targets ts = .error (validationMsg p)) ∧
    (ts.find? (fun q => !(q.getLastD "" == "node_modules")) = none →
        validate_targets ts = .ok ())
  | [] => ⟨fun p h => by simp [List.find?] at h, fun _ => rfl⟩
  | q :: rest => by
      rw [validate_targets_cons]
      by_cases hq : (q.getLastD "" == "node_modules") = true
      · rw [if_pos hq]
        have hfind : List.find? (fun q => !(q.getLastD "" == "node_modules")) (q :: rest)
            = List.find? (fun q => !(q.getLastD "" == "node_modules")) rest :=
          List.find?_cons_of_neg _ (by rw [hq]; decide)
        rw [hfind]
        exact validate_targets_find rest
      · have hqf : (q.getLastD "" == "node_modules") = false :=
          Bool.eq_false_iff.mpr hq
        rw [if_neg hq]
        have hfind : List.find? (fun q => !(q.getLastD "" == "node_modules")) (q :: rest)
            = some q :=
          List.find?_cons_of_pos _ (by rw [hqf]; decide)
        rw [hfind]
        constructor
        · intro p hp
          injection hp with hp2
          rw [hp2]
        · intro hnone
          cases hnone

/-- C2: `delete_directories` fails with the safety-check error naming the
first path (in list order) whose terminal component is not `node_modules`,
leaving the filesystem state untouched (no directory is removed); when
every target ends in `node_modules`, validation passes and an `ok`
statistics value is returned. -/
theorem C2_delete_directories_validates {σ : Type} (ops : FsOps σ) (st : σ)
    (targets : List (List String)) :
    (∀ p, targets.find? (fun q => !(q.getLastD "" == "node_modules")) = some p →
        Cleaner.delete_directories ops st targets = (st, .error (validationMsg p))) ∧
    (targets.find? (fun q => !(q.getLastD "" == "node_modules")) = none →
        ∃ stats, (Cleaner.delete_directories ops st targets).2 = .ok stats) := by
  constructor
  · intro p hp
    have hv := (validate_targets_find targets).1 p hp
    unfold Cleaner.delete_directories
    rw [hv]
  · intro hnone
    have hv := (validate_targets_find targets).2 hnone
    unfold Cleaner.delete_directories
    rw [hv]
    by_cases he : targets.isEmpty
    · rw [if_pos he]
      exact ⟨{}, rfl⟩
    · rw [if_neg he]
      exact ⟨_, rfl⟩

theorem C2_witness :
    Cleaner.delete_directories (⟨fun _ _ => .ok 0, fun s2 _ => (s2, .ok ())⟩ : FsOps Unit)
      () [["bad"]] = ((), .error (validationMsg ["bad"])) :=
  (C2_delete_directories_validates _ _ _).1 ["bad"] (by decide)
theorem deleteStep_counts {σ : Type} (ops : FsOps σ) (a : σ × Nat × Nat × Nat)
    (tt : List String) :
    (Cleaner.deleteStep ops a tt).2.1 + (Cleaner.deleteStep ops a tt).2.2.1
      = a.2.1 + a.2.2.1 + 1 := by
  unfold Cleaner.deleteStep
  cases hds : Cleaner.delete_single_directory ops a.1 tt with
  | mk st2 r =>
      cases r with
      | ok b =>
          show a.2.1 + 1 + a.2.2.1 = a.2.1 + a.2.2.1 + 1
          omega
      | error e =>
          show a.2.1 + (a.2.2.1 + 1) = a.2.1 + a.2.2.1 + 1
          omega

theorem deleteStep_foldl_counts {σ : Type} (ops : FsOps σ) :
    ∀ (ts : List (List String)) (acc : σ × Nat × Nat × Nat),
    (ts.foldl (Cleaner.deleteStep ops) acc).2.1
        + (ts.foldl (Cleaner.deleteStep ops) acc).2.2.1
      = acc.2.1 + acc.2.2.1 + ts.length
  | [], acc => by simp
  | tt :: rest, acc => by
      simp only [List.foldl_cons, List.length_cons]
      rw [deleteStep_foldl_counts ops rest (Cleaner.deleteStep ops acc tt),
        deleteStep_counts ops acc tt]
      omega

/-- C3: whenever `delete_directories` returns `ok` statistics,
`directories_found` equals the input list's length and
`directories_deleted + directories_failed = directories_found` (each task
bumps exactly one of the two counters), so in particular
`directories_deleted + directories_failed ≤ directories_found`. -/
theorem C3_delete_directories_conservation {σ : Type} (ops : FsOps σ) (st : σ)
    (targets : List (List String)) (stats : CleanupStats)
    (h : (Cleaner.delete_directories ops st targets).2 = .ok stats) :
    stats.directories_found = targets.length ∧
      stats.directories_deleted + stats.directories_failed = stats.directories_found := by
  unfold Cleaner.delete_directories at h
  cases hv : validate_targets targets with
  | error e =>
      rw [hv] at h
      cases h
  | ok u =>
      rw [hv] at h
      by_cases he : targets.isEmpty
      · rw [if_pos he] at h
        injection h with h2
        have hnil : targets = [] := List.isEmpty_iff.mp he
        subst hnil
        rw [← h2]
        exact ⟨rfl, rfl⟩
      · rw [if_neg he] at h
        injection h with h2
        subst h2
        refine ⟨rfl, ?_⟩
        show (targets.foldl (Cleaner.deleteStep ops) (st, 0, 0, 0)).2.1
            + (targets.foldl (Cleaner.deleteStep ops) (st, 0, 0, 0)).2.2.1
          = targets.length
        rw [deleteStep_foldl_counts ops targets (st, 0, 0, 0)]
        show 0 + 0 + targets.length = targets.length
        omega

theorem C3_witness :
    (⟨1, 1, 0, 7⟩ : CleanupStats).directories_found = [["node_modules"]].length ∧
    (⟨1, 1, 0, 7⟩ : CleanupStats).directories_deleted
        + (⟨1, 1, 0, 7⟩ : CleanupStats).directories_failed
      = (⟨1, 1, 0, 7⟩ : CleanupStats).directories_found :=
  C3_delete_directories_conservation
    (⟨fun _ _ => .ok 7, fun s2 _ => (s2, .ok ())⟩ : FsOps Unit)
    () [["node_modules"]] ⟨1, 1, 0, 7⟩ rfl
/-- C7: `delete_single_directory` runs the size probe first and, when the
probe fails, substitutes 0 while still issuing the recursive remove (the
returned state is the state after `remove_dir_all` in every case); on a
successful remove it returns exactly the probe's byte count (0 when the
probe failed), and a remove error is propagated to the caller. -/
theorem C7_delete_single_directory_spec {σ : Type} (ops : FsOps σ) (st : σ)
    (p : List String) :
    (∀ e, ops.calcSize st p = .error e →
      Cleaner.delete_single_directory ops st p =
        ((ops.removeDirAll st p).1,
          match (ops.removeDirAll st p).2 with
          | .ok _ => .ok 0
          | .error er => .error er)) ∧
    (∀ n, ops.calcSize st p = .ok n →
      Cleaner.delete_single_directory ops st p =
        ((ops.removeDirAll st p).1,
          match (ops.removeDirAll st p).2 with
          | .ok _ => .ok n
          | .error er => .error er)) := by
  constructor <;>
    (intro x hx
     unfold Cleaner.delete_single_directory
     rw [hx]
     cases hrm : ops.removeDirAll st p with
     | mk st2 r => cases r <;> rfl)

theorem C7_witness :
    Cleaner.delete_single_directory
      (⟨fun _ _ => .error "probe failed", fun s2 _ => (s2, .ok ())⟩ : FsOps Unit)
      () ["node_modules"] = ((), .ok 0) :=
  (C7_delete_single_directory_spec _ _ _).1 "probe failed" rfl

/-- C8: with `dry_run` set and a non-empty candidate list,
`cleanup_node_modules` leaves the filesystem state unchanged and returns
statistics whose `directories_found` is the candidate count and whose
other fields are all zero. -/
theorem C8_dry_run_no_deletion {σ : Type} (s : Scanner) (t : FSTree) (config : Config)
    (ops : FsOps σ) (st : σ) (ans : Bool)
    (hdry : config.dry_run = true)
    (hne : s.find_node_modules_dirs t ≠ []) :
    cleanup_node_modules s t config ops st ans =
      (st, .ok { directories_found := (s.find_node_modules_dirs t).length,
                 directories_deleted := 0, directories_failed := 0, bytes_freed := 0 }) := by
  unfold cleanup_node_modules
  rw [if_neg (by simpa using hne), hdry, if_pos rfl]

theorem C8_witness :
    cleanup_node_modules ⟨["r"], []⟩ (.dir (.cons "node_modules" (.dir .nil) .nil))
      ⟨true, false, false⟩ (⟨fun _ _ => .ok 0, fun s2 _ => (s2, .ok ())⟩ : FsOps Unit) () false
      = ((), .ok { directories_found := 1, directories_deleted := 0,
                   directories_failed := 0, bytes_freed := 0 }) :=
  C8_dry_run_no_deletion _ _ _ _ _ _ rfl (by decide)
theorem foldl_fileSize : ∀ (l : List (List String × FSTree)) (acc : Nat),
    l.foldl (fun total e => total + fileSizeOf e.2) acc
      = acc + (l.map (fun e => fileSizeOf e.2)).sum
  | [], acc => by simp
  | e :: rest, acc => by
      simp only [List.foldl_cons, List.map_cons, List.sum_cons]
      rw [foldl_fileSize rest (acc + fileSizeOf e.2)]
      omega

mutual

theorem walkAll_sum : ∀ (p : List String) (t : FSTree),
    ((walkF (fun _ => true) p t).map (fun e => fileSizeOf e.2)).sum = sumRegularFiles t
  | p, .file n => by simp [walkF, fileSizeOf, sumRegularFiles]
  | p, .symlink n => by simp [walkF, fileSizeOf, sumRegularFiles]
  | p, .dir f => by
      simp only [walkF, if_true, List.map_cons, List.sum_cons]
      rw [walkForest_sum p f]
      simp [fileSizeOf, sumRegularFiles]

theorem walkForest_sum : ∀ (p : List String) (f : FSForest),
    ((walkForest (fun _ => true) p f).map (fun e => fileSizeOf e.2)).sum
      = sumRegularFilesForest f
  | p, .nil => by simp [walkForest, sumRegularFilesForest]
  | p, .cons name t rest => by
      simp only [walkForest, List.map_append, List.sum_append]
      rw [walkAll_sum (p ++ [name]) t, walkForest_sum p rest]
      simp [sumRegularFilesForest]

end

/-- C9 counterexample: a directory containing a single symbolic link of
link size 5 has `calculate_directory_size` 0, while the claimed sum (in
which each symbolic link contributes its own size) is 5. -/
theorem C9_counterexample :
    calculate_directory_size (.dir (.cons "link" (.symlink 5) .nil)) = 0 ∧
    specSizeWithLinks (.dir (.cons "link" (.symlink 5) .nil)) = 5 := by
  decide

/-- C9 amended: `calculate_directory_size` returns the sum of the byte
lengths of the regular files below the directory; symbolic links are not
regular files and contribute nothing (not their own link size). -/
theorem C9_size_counts_only_regular_files (t : FSTree) :
    calculate_directory_size t = sumRegularFiles t := by
  unfold calculate_directory_size
  rw [foldl_fileSize]
  simpa using walkAll_sum [] t
